import Mathlib

/-!
Verification of the change-point detector in `cpdetect/cp_detector.py`.

The Python code computes with IEEE floating point numbers.  We embed a float
as either a finite real number, `+inf`, `-inf`, or `nan` (type `F` below),
with the IEEE special-value rules for the arithmetic operations the code
uses (`np.log`, `+`, `-`, `*`, `/`, `abs`, `**2`, `np.exp`, comparison,
`math.isnan`).  Rounding is not modelled: finite values are exact reals.

The components of the source file are embedded one by one:
* `Dist.meanVar`      embeds `Normal.mean_var` and `LogNormal.mean_var`;
* `loggammaTable`     embeds `Detector._generate_loggamma_table`;
* `bf` (with the auxiliary `bfDenom`, `bfWeight`, `bfWeights`, `bfNum`,
  `bfLogOdds`, `bfMasked`) embeds `Detector._normal_lognormal_bf`;
* `splitSeg`          embeds `Detector._split`;
* `genStep`           embeds `Detector._generate_step_function`;
* `detectTraj`, `detectAll`, `detectCp`, `Detector.mk0` embed `detect_cp`
  and the constructor state.

A raised `ValueError` is embedded as `Except.error ()`.
-/

open Classical

noncomputable section

namespace Cpdetect

/-- An IEEE-style floating point value: a finite real, an infinity, or NaN. -/
inductive F where
  | fin : ℝ → F
  | pinf : F
  | ninf : F
  | nan : F

/-- IEEE negation. -/
def F.neg : F → F
  | F.fin x => F.fin (-x)
  | F.pinf => F.ninf
  | F.ninf => F.pinf
  | F.nan => F.nan

/-- IEEE addition: NaN absorbs, opposite infinities give NaN. -/
def F.add : F → F → F
  | F.nan, _ => F.nan
  | _, F.nan => F.nan
  | F.pinf, F.ninf => F.nan
  | F.ninf, F.pinf => F.nan
  | F.pinf, _ => F.pinf
  | _, F.pinf => F.pinf
  | F.ninf, _ => F.ninf
  | _, F.ninf => F.ninf
  | F.fin a, F.fin b => F.fin (a + b)

/-- IEEE subtraction. -/
def F.sub (a b : F) : F := a.add b.neg

/-- IEEE multiplication: NaN absorbs, `0 * inf = NaN`, signs propagate. -/
def F.mul : F → F → F
  | F.nan, _ => F.nan
  | _, F.nan => F.nan
  | F.pinf, F.pinf => F.pinf
  | F.pinf, F.ninf => F.ninf
  | F.ninf, F.pinf => F.ninf
  | F.ninf, F.ninf => F.pinf
  | F.pinf, F.fin y => if 0 < y then F.pinf else if y < 0 then F.ninf else F.nan
  | F.ninf, F.fin y => if 0 < y then F.ninf else if y < 0 then F.pinf else F.nan
  | F.fin x, F.pinf => if 0 < x then F.pinf else if x < 0 then F.ninf else F.nan
  | F.fin x, F.ninf => if 0 < x then F.ninf else if x < 0 then F.pinf else F.nan
  | F.fin x, F.fin y => F.fin (x * y)

/-- IEEE division (only ever used with a finite divisor in the code). -/
def F.div : F → F → F
  | F.nan, _ => F.nan
  | _, F.nan => F.nan
  | F.pinf, F.pinf => F.nan
  | F.pinf, F.ninf => F.nan
  | F.ninf, F.pinf => F.nan
  | F.ninf, F.ninf => F.nan
  | F.pinf, F.fin y => if 0 ≤ y then F.pinf else F.ninf
  | F.ninf, F.fin y => if 0 ≤ y then F.ninf else F.pinf
  | F.fin _, F.pinf => F.fin 0
  | F.fin _, F.ninf => F.fin 0
  | F.fin x, F.fin y =>
      if y = 0 then (if 0 < x then F.pinf else if x < 0 then F.ninf else F.nan)
      else F.fin (x / y)

/-- Squaring, embedding the Python `** 2`. -/
def F.sq (x : F) : F := x.mul x

/-- The `np.log` function on floats: `log 0 = -inf`, `log` of a negative
number (and of `-inf`) is NaN, `log (+inf) = +inf`. -/
def F.log : F → F
  | F.nan => F.nan
  | F.pinf => F.pinf
  | F.ninf => F.nan
  | F.fin x => if 0 < x then F.fin (Real.log x) else if x = 0 then F.ninf else F.nan

/-- The `abs` function on floats. -/
def F.abs : F → F
  | F.nan => F.nan
  | F.pinf => F.pinf
  | F.ninf => F.pinf
  | F.fin x => F.fin |x|

/-- The `np.exp` function on floats. -/
def F.exp : F → F
  | F.nan => F.nan
  | F.pinf => F.pinf
  | F.ninf => F.fin 0
  | F.fin x => F.fin (Real.exp x)

/-- The `math.isnan` test. -/
def F.isnan : F → Bool
  | F.nan => true
  | _ => false

/-- A value is finite when it is neither NaN nor an infinity. -/
def F.isFinite : F → Bool
  | F.fin _ => true
  | _ => false

/-- IEEE strict comparison `<`: every comparison with NaN is false. -/
def F.lt : F → F → Prop
  | F.nan, _ => False
  | _, F.nan => False
  | F.ninf, F.ninf => False
  | F.ninf, _ => True
  | _, F.ninf => False
  | F.pinf, _ => False
  | F.fin _, F.pinf => True
  | F.fin a, F.fin b => a < b

/-- The `numpy` arithmetic mean of an array: sum divided by size. -/
def F.listMean (l : List F) : F :=
  (l.foldl F.add (F.fin 0)).div (F.fin (l.length : ℝ))

/-- The two distribution strategies of the source (`Normal`, `LogNormal`). -/
inductive Dist where
  | normal : Dist
  | logNormal : Dist

/-- Arithmetic mean of a list of reals (`data.mean()`). -/
def rmean (l : List ℝ) : ℝ := l.sum / l.length

/-- Population variance of a list of reals (`data.var()`). -/
def rvar (l : List ℝ) : ℝ := ((l.map (fun x => (x - rmean l) ^ 2)).sum) / l.length

/-- Log of each data point, as floats (`np.log(data)` inside `LogNormal`). -/
def logData (l : List ℝ) : List F := l.map (fun x => F.log (F.fin x))

/-- The location returned by `LogNormal.mean_var`: `logx.sum()/n`. -/
def lnLoc (l : List ℝ) : F :=
  ((logData l).foldl F.add (F.fin 0)).div (F.fin (l.length : ℝ))

/-- The scale returned by `LogNormal.mean_var`: `((logx - loc)**2).sum()/n`. -/
def lnScale (l : List ℝ) : F :=
  (((logData l).map (fun t => F.sq (t.sub (lnLoc l)))).foldl F.add (F.fin 0)).div
    (F.fin (l.length : ℝ))

/-- The `mean_var` contract of the distribution strategy objects.  Finite
input data give finite mean and variance for `Normal`; `LogNormal` takes
logs first, so non-positive data points produce special values. -/
def Dist.meanVar : Dist → List ℝ → F × F
  | Dist.normal, l => (F.fin (rmean l), F.fin (rvar l))
  | Dist.logNormal, l => (lnLoc l, lnScale l)

/-- The value `gammaln(0.5 * n - 1)` stored in the log-gamma table.  All
stored arguments are at least `0.5`, where the Gamma function is positive. -/
def lgam (n : Nat) : ℝ := Real.log (Real.Gamma ((n : ℝ) / 2 - 1))

/-- The log-gamma table built by `_generate_loggamma_table`: the sentinel
prefix `[-99, -99, -99]` from the constructor followed by
`gammaln(0.5*i - 1)` for `i` in `range(3, L + 1)`. -/
def loggammaTable (L : Nat) : List ℝ :=
  [-99, -99, -99] ++ (List.range' 3 (L - 2)).map (fun i => lgam i)

/-- Indexing into the log-gamma table (`self.loggamma[n]`). -/
def tabLookup (t : List ℝ) (n : Nat) : ℝ := t.getD n 0

/-- The denominator of `_normal_lognormal_bf`:
`1.5*log(pi) + (-n/2 + 0.5)*log(n*var) + loggamma[n]`. -/
def bfDenom (dist : Dist) (lg : Nat → ℝ) (obs : List ℝ) : F :=
  ((F.fin (1.5 * Real.log Real.pi)).add
      ((F.fin (-(obs.length : ℝ) / 2 + 0.5)).mul
        (F.log ((F.fin (obs.length : ℝ)).mul (dist.meanVar obs).2)))).add
    (F.fin (lg obs.length))

/-- The weight appended for candidate split `i` in `_normal_lognormal_bf`:
`data_a = obs[0:i]`, `data_b = obs[i:]`, and
`(wnumf1 + wnumf2) - (log(var_a+var_b) + log(mean_a**2 * mean_b**2))`. -/
def bfWeight (dist : Dist) (lg : Nat → ℝ) (obs : List ℝ) (i : Nat) : F :=
  let na : Nat := (obs.take i).length
  let nb : Nat := (obs.drop i).length
  let ma : F := (dist.meanVar (obs.take i)).1
  let va : F := (dist.meanVar (obs.take i)).2
  let mb : F := (dist.meanVar (obs.drop i)).1
  let vb : F := (dist.meanVar (obs.drop i)).2
  let wnumf1 : F :=
    (((F.fin (-0.5 * (na : ℝ) + 0.5)).mul (F.log (F.fin (na : ℝ)))).add
        ((F.fin (-0.5 * (na : ℝ) + 1)).mul (F.log va))).add (F.fin (lg na))
  let wnumf2 : F :=
    (((F.fin (-0.5 * (nb : ℝ) + 0.5)).mul (F.log (F.fin (nb : ℝ)))).add
        ((F.fin (-0.5 * (nb : ℝ) + 1)).mul (F.log vb))).add (F.fin (lg nb))
  let wdenom : F := (F.log (va.add vb)).add (F.log ((F.sq ma).mul (F.sq mb)))
  (wnumf1.add wnumf2).sub wdenom

/-- The full weight array of `_normal_lognormal_bf`: three leading zeros,
one weight per `i` in `range(3, n-2)`, and two trailing zeros. -/
def bfWeights (dist : Dist) (lg : Nat → ℝ) (obs : List ℝ) : List F :=
  [F.fin 0, F.fin 0, F.fin 0] ++
    (List.range' 3 (obs.length - 5)).map (bfWeight dist lg obs) ++ [F.fin 0, F.fin 0]

/-- The numerator of `_normal_lognormal_bf`:
`2.5*log(2) + log(abs(mean)) + weights.mean()`. -/
def bfNum (dist : Dist) (lg : Nat → ℝ) (obs : List ℝ) : F :=
  ((F.fin (2.5 * Real.log 2)).add (F.log (F.abs (dist.meanVar obs).1))).add
    (F.listMean (bfWeights dist lg obs))

/-- The log odds of `_normal_lognormal_bf`: `num - denom`. -/
def bfLogOdds (dist : Dist) (lg : Nat → ℝ) (obs : List ℝ) : F :=
  (bfNum dist lg obs).sub (bfDenom dist lg obs)

/-- The weight array after the boundary positions `0, 1, 2, -1, -2` are
overwritten with `-inf` so they cannot be the argmax. -/
def bfMasked (dist : Dist) (lg : Nat → ℝ) (obs : List ℝ) : List F :=
  (((((bfWeights dist lg obs).set 0 F.ninf).set 1 F.ninf).set 2 F.ninf).set
      ((bfWeights dist lg obs).length - 1) F.ninf).set
    ((bfWeights dist lg obs).length - 2) F.ninf

/-- The running state of `numpy`'s argmax scan: best index and best value,
replaced exactly when a strictly greater element is seen. -/
def argmaxGo : List F → Nat → Nat × F → Nat × F
  | [], _, b => b
  | x :: xs, i, b => if F.lt b.2 x then argmaxGo xs (i + 1) (i, x) else argmaxGo xs (i + 1) b

/-- The `numpy` `argmax` of an array: first index of the maximum. -/
def F.argmax (l : List F) : Nat :=
  match l with
  | [] => 0
  | x :: xs => (argmaxGo xs 1 (0, x)).1

/-- The scorer `_normal_lognormal_bf`.  `Except.error ()` embeds the raised
`ValueError`; `Except.ok none` embeds `return None`; `Except.ok (some (i, lo))`
embeds `return weights.argmax(), log_odds`. -/
def bf (dist : Dist) (lg : Nat → ℝ) (θ : ℝ) (obs : List ℝ) :
    Except Unit (Option (Nat × F)) :=
  if obs.length < 6 then Except.ok none
  else if (bfLogOdds dist lg obs).isnan then Except.error ()
  else if F.lt (bfLogOdds dist lg obs) (F.fin θ) then Except.ok none
  else Except.ok (some (F.argmax (bfMasked dist lg obs), bfLogOdds dist lg obs))

/-- Addition by a NaN on the right gives NaN. -/
theorem F.add_nan_right (x : F) : x.add F.nan = F.nan := by cases x <;> rfl

/-- Subtracting anything from NaN gives NaN. -/
theorem F.nan_sub (y : F) : F.nan.sub y = F.nan := by cases y <;> rfl

/-- Regrouping a subtraction of a sum, valid for the IEEE special values:
`a - (x + y) = (a - x) - y`. -/
theorem F.sub_add_eq (a x y : F) : a.sub (x.add y) = (a.sub x).sub y := by
  cases a <;> cases x <;> cases y <;> simp [F.sub, F.add, F.neg] <;> ring

/-- Multiplying by the float `1` on the left is the identity. -/
theorem F.one_mul (x : F) : (F.fin 1).mul x = x := by
  cases x <;> simp [F.mul] <;> norm_num

/-- A float is bad when it is `-inf` or NaN: a sum containing a bad term
cannot be finite or `+inf`. -/
def F.isBad (x : F) : Prop := x = F.ninf ∨ x = F.nan

/-- Badness propagates through addition from the left operand. -/
theorem F.isBad_add_left {x : F} (y : F) (h : x.isBad) : (x.add y).isBad := by
  rcases h with h | h <;> subst h <;> cases y <;> simp [F.add, F.isBad]

/-- Badness propagates through addition from the right operand. -/
theorem F.isBad_add_right (x : F) {y : F} (h : y.isBad) : (x.add y).isBad := by
  rcases h with h | h <;> subst h <;> cases x <;> simp [F.add, F.isBad]

/-- A fold of additions over a list with a bad element, or from a bad
accumulator, is bad. -/
theorem F.isBad_foldl_add :
    ∀ (l : List F) (acc : F), ((∃ a ∈ l, a.isBad) ∨ acc.isBad) →
      (l.foldl F.add acc).isBad := by
  intro l
  induction l with
  | nil =>
    intro acc h
    rcases h with ⟨a, ha, _⟩ | h
    · exact absurd ha (List.not_mem_nil a)
    · simpa using h
  | cons x xs ih =>
    intro acc h
    rcases h with ⟨a, ha, hbad⟩ | h
    · rcases List.mem_cons.1 ha with rfl | ha'
      · exact ih (acc.add a) (Or.inr (F.isBad_add_right acc hbad))
      · exact ih (acc.add x) (Or.inl ⟨a, ha', hbad⟩)
    · exact ih (acc.add x) (Or.inr (F.isBad_add_left x h))

/-- Dividing a bad value by a (nonnegative-real) finite float keeps it bad. -/
theorem F.isBad_div {x : F} {c : ℝ} (hc : 0 ≤ c) (h : x.isBad) :
    (x.div (F.fin c)).isBad := by
  rcases h with h | h <;> subst h <;> simp [F.div, F.isBad, hc]

/-- IEEE `<` is irreflexive. -/
theorem F.lt_irrefl (x : F) : ¬ F.lt x x := by
  cases x <;> simp [F.lt]

/-- Nothing is IEEE-less-than NaN. -/
theorem F.not_lt_nan (x : F) : ¬ F.lt x F.nan := by
  cases x <;> simp [F.lt]

/-- IEEE `<` is transitive. -/
theorem F.lt_trans {a b c : F} (h1 : F.lt a b) (h2 : F.lt b c) : F.lt a c := by
  cases a <;> cases b <;> cases c <;> simp [F.lt] at * <;> linarith

/-- Trichotomy for IEEE `<` on values that are not NaN. -/
theorem F.eq_or_lt_of_not_lt {a b : F} (ha : a ≠ F.nan) (hb : b ≠ F.nan)
    (h : ¬ F.lt a b) : b = a ∨ F.lt b a := by
  cases a <;> cases b <;>
    first
      | exact absurd rfl ha
      | exact absurd rfl hb
      | exact Or.inl rfl
      | exact Or.inr trivial
      | exact absurd trivial h
      | skip
  rename_i x y
  rcases lt_trichotomy x y with hl | hl | hl
  · exact absurd hl h
  · exact Or.inl (by rw [hl])
  · exact Or.inr hl

/-- A `-inf` entry is below any entry that is not bad. -/
theorem F.lt_ninf_of_not_isBad {w : F} (h : ¬ w.isBad) : F.lt F.ninf w := by
  cases w <;> simp [F.isBad, F.lt] at *

/-- If the running best of the argmax scan is NaN it never gets replaced. -/
theorem argmaxGo_nan :
    ∀ (l : List F) (i : Nat) (b : Nat × F), b.2 = F.nan →
      (argmaxGo l i b).2 = F.nan := by
  intro l
  induction l with
  | nil => intro i b h; simpa [argmaxGo] using h
  | cons x xs ih =>
    intro i b h
    have hlt : ¬ F.lt b.2 x := by rw [h]; cases x <;> simp [F.lt]
    rw [argmaxGo, if_neg hlt]
    exact ih (i + 1) b h

/-- The argmax scan result is never below the initial best nor below any
scanned element. -/
theorem argmaxGo_not_lt :
    ∀ (l : List F) (i : Nat) (b : Nat × F),
      ¬ F.lt (argmaxGo l i b).2 b.2 ∧ ∀ x ∈ l, ¬ F.lt (argmaxGo l i b).2 x := by
  intro l
  induction l with
  | nil =>
    intro i b
    refine ⟨F.lt_irrefl _, ?_⟩
    intro x hx
    exact absurd hx (List.not_mem_nil x)
  | cons x xs ih =>
    intro i b
    by_cases hlt : F.lt b.2 x
    · rw [argmaxGo, if_pos hlt]
      obtain ⟨h1, h2⟩ := ih (i + 1) (i, x)
      refine ⟨?_, ?_⟩
      · intro hc
        exact h1 (F.lt_trans hc hlt)
      · intro y hy
        rcases List.mem_cons.1 hy with rfl | hy'
        · exact h1
        · exact h2 y hy'
    · rw [argmaxGo, if_neg hlt]
      obtain ⟨h1, h2⟩ := ih (i + 1) b
      refine ⟨h1, ?_⟩
      intro y hy
      rcases List.mem_cons.1 hy with rfl | hy'
      · intro hc
        by_cases hbn : b.2 = F.nan
        · have := argmaxGo_nan xs (i + 1) b hbn
          rw [this] at hc
          exact (show ¬ F.lt F.nan y by simp [F.lt]) hc
        · have hyn : y ≠ F.nan := by
            intro hy0; rw [hy0] at hc; exact F.not_lt_nan _ hc
          rcases F.eq_or_lt_of_not_lt hbn hyn hlt with heq | hlt2
          · rw [heq] at hc; exact h1 hc
          · exact h1 (F.lt_trans hc hlt2)
      · exact h2 y hy'

/-- The argmax scan returns the initial best or an index into the scanned
list together with the value there. -/
theorem argmaxGo_eq :
    ∀ (l : List F) (i : Nat) (b : Nat × F),
      argmaxGo l i b = b ∨
        ∃ j, j < l.length ∧ argmaxGo l i b = (i + j, l.getD j F.nan) := by
  intro l
  induction l with
  | nil => intro i b; exact Or.inl rfl
  | cons x xs ih =>
    intro i b
    by_cases hlt : F.lt b.2 x
    · rw [argmaxGo, if_pos hlt]
      rcases ih (i + 1) (i, x) with h | ⟨j, hj, h⟩
      · exact Or.inr ⟨0, by simp, by simpa using h⟩
      · refine Or.inr ⟨j + 1, by simp; omega, ?_⟩
        have he : i + 1 + j = i + (j + 1) := by omega
        rw [h, he, List.getD_cons_succ]
    · rw [argmaxGo, if_neg hlt]
      rcases ih (i + 1) b with h | ⟨j, hj, h⟩
      · exact Or.inl h
      · refine Or.inr ⟨j + 1, by simp; omega, ?_⟩
        have he : i + 1 + j = i + (j + 1) := by omega
        rw [h, he, List.getD_cons_succ]

/-- The argmax of a nonempty list is a valid index. -/
theorem argmax_lt_length (x : F) (xs : List F) :
    F.argmax (x :: xs) < (x :: xs).length := by
  rw [F.argmax]
  rcases argmaxGo_eq xs 1 (0, x) with h | ⟨j, hj, h⟩
  · rw [h]; simp
  · rw [h]; simp; omega

/-- The value of the list at its argmax is the value found by the scan. -/
theorem argmax_getD (x : F) (xs : List F) :
    (x :: xs).getD (F.argmax (x :: xs)) F.nan = (argmaxGo xs 1 (0, x)).2 := by
  rw [F.argmax]
  rcases argmaxGo_eq xs 1 (0, x) with h | ⟨j, hj, h⟩
  · rw [h]; simp
  · rw [h]
    have he : 1 + j = j + 1 := by omega
    rw [he, List.getD_cons_succ]

/-- The value at the argmax is not below any element of the list. -/
theorem argmax_is_max (x : F) (xs : List F) :
    ∀ y ∈ x :: xs, ¬ F.lt ((x :: xs).getD (F.argmax (x :: xs)) F.nan) y := by
  intro y hy
  rw [argmax_getD]
  obtain ⟨h1, h2⟩ := argmaxGo_not_lt xs 1 (0, x)
  rcases List.mem_cons.1 hy with rfl | hy'
  · exact h1
  · exact h2 y hy'

/-- The weight array has one entry per sample of the segment. -/
theorem bfWeights_length (dist : Dist) (lg : Nat → ℝ) {obs : List ℝ}
    (h6 : 6 ≤ obs.length) : (bfWeights dist lg obs).length = obs.length := by
  simp [bfWeights]
  omega

/-- The masked weight array has the same length as the weight array. -/
theorem bfMasked_length (dist : Dist) (lg : Nat → ℝ) (obs : List ℝ) :
    (bfMasked dist lg obs).length = (bfWeights dist lg obs).length := by
  simp [bfMasked]

/-- If the scorer neither raises nor rejects on the threshold, no weight is
`-inf` or NaN: a NaN weight would make the mean (hence the log odds) NaN,
and a `-inf` weight would make the log odds NaN or `-inf`. -/
theorem weights_not_isBad {dist : Dist} {lg : Nat → ℝ} {θ : ℝ} {obs : List ℝ}
    (hnan : (bfLogOdds dist lg obs).isnan = false)
    (ht : ¬ F.lt (bfLogOdds dist lg obs) (F.fin θ)) :
    ∀ w ∈ bfWeights dist lg obs, ¬ w.isBad := by
  intro w hw hbad
  have hsum : ((bfWeights dist lg obs).foldl F.add (F.fin 0)).isBad :=
    F.isBad_foldl_add _ _ (Or.inl ⟨w, hw, hbad⟩)
  have hmean : (F.listMean (bfWeights dist lg obs)).isBad :=
    F.isBad_div (Nat.cast_nonneg _) hsum
  have hodds : bfLogOdds dist lg obs =
      (((F.fin (2.5 * Real.log 2)).add (F.log (F.abs (dist.meanVar obs).1))).add
        (F.listMean (bfWeights dist lg obs))).sub (bfDenom dist lg obs) := rfl
  rcases hmean with hm | hm <;> rw [hm] at hodds <;>
    cases hl : F.log (F.abs (dist.meanVar obs).1) <;> rw [hl] at hodds <;>
    cases hd : bfDenom dist lg obs <;> rw [hd] at hodds <;>
    rw [hodds] at hnan ht <;>
    simp [F.add, F.sub, F.neg, F.isnan, F.lt] at hnan ht

/-- A masked entry at an interior index is the corresponding weight. -/
theorem bfMasked_getD_interior (dist : Dist) (lg : Nat → ℝ) {obs : List ℝ}
    (h6 : 6 ≤ obs.length) {j : Nat} (h3 : 3 ≤ j) (hj : j + 3 ≤ obs.length) :
    (bfMasked dist lg obs).getD j F.nan = (bfWeights dist lg obs).getD j F.nan := by
  have hlen := bfWeights_length dist lg h6
  have hjW : j < (bfWeights dist lg obs).length := by omega
  rw [List.getD_eq_getElem?_getD, List.getD_eq_getElem?_getD]
  simp only [bfMasked]
  rw [List.getElem?_set_ne (by omega), List.getElem?_set_ne (by omega),
    List.getElem?_set_ne (by omega), List.getElem?_set_ne (by omega),
    List.getElem?_set_ne (by omega)]

/-- A masked entry at a boundary index (`0`, `1`, `2`, `n-1`, `n-2`) is
`-inf`. -/
theorem bfMasked_getD_boundary (dist : Dist) (lg : Nat → ℝ) {obs : List ℝ}
    (h6 : 6 ≤ obs.length) {p : Nat}
    (hp : p = 0 ∨ p = 1 ∨ p = 2 ∨ p = obs.length - 1 ∨ p = obs.length - 2) :
    (bfMasked dist lg obs).getD p F.nan = F.ninf := by
  have hlen := bfWeights_length dist lg h6
  rw [List.getD_eq_getElem?_getD]
  simp only [bfMasked]
  rw [hlen]
  rcases hp with rfl | rfl | rfl | rfl | rfl
  · rw [List.getElem?_set_ne (by omega), List.getElem?_set_ne (by omega),
      List.getElem?_set_ne (by omega), List.getElem?_set_ne (by omega),
      List.getElem?_set_self (by omega)]
    rfl
  · rw [List.getElem?_set_ne (by omega), List.getElem?_set_ne (by omega),
      List.getElem?_set_ne (by omega),
      List.getElem?_set_self (by simp [List.length_set]; omega)]
    rfl
  · rw [List.getElem?_set_ne (by omega), List.getElem?_set_ne (by omega),
      List.getElem?_set_self (by simp [List.length_set]; omega)]
    rfl
  · rw [List.getElem?_set_ne (by omega),
      List.getElem?_set_self (by simp [List.length_set]; omega)]
    rfl
  · rw [List.getElem?_set_self (by simp [List.length_set]; omega)]
    rfl

/-- Unfolding a successful run of the scorer. -/
theorem bf_ok_some {dist : Dist} {lg : Nat → ℝ} {θ : ℝ} {obs : List ℝ}
    {i : Nat} {lo : F} (h : bf dist lg θ obs = Except.ok (some (i, lo))) :
    6 ≤ obs.length ∧ lo = bfLogOdds dist lg obs ∧
      (bfLogOdds dist lg obs).isnan = false ∧
      ¬ F.lt (bfLogOdds dist lg obs) (F.fin θ) ∧
      i = F.argmax (bfMasked dist lg obs) := by
  unfold bf at h
  split_ifs at h with h1 h2 h3
  all_goals simp at h
  exact ⟨by omega, h.2.symm, by simpa using h2, h3, h.1.symm⟩

/-- The index returned by a successful scorer call is strictly interior:
at least `3` and at most `n - 3`. -/
theorem bf_some_bounds {dist : Dist} {lg : Nat → ℝ} {θ : ℝ} {obs : List ℝ}
    {i : Nat} {lo : F} (h : bf dist lg θ obs = Except.ok (some (i, lo))) :
    3 ≤ i ∧ i + 3 ≤ obs.length := by
  obtain ⟨h6, _, hnan, ht, hi⟩ := bf_ok_some h
  have hW := weights_not_isBad hnan ht
  have hlen := bfWeights_length dist lg h6
  have hMlen : (bfMasked dist lg obs).length = obs.length := by
    rw [bfMasked_length]; exact hlen
  obtain ⟨m0, mrest, hM⟩ : ∃ a l, bfMasked dist lg obs = a :: l := by
    cases hMc : bfMasked dist lg obs with
    | nil => rw [hMc] at hMlen; simp at hMlen; omega
    | cons a l => exact ⟨a, l, rfl⟩
  have hilt : i < obs.length := by
    rw [hi, ← hMlen, hM]
    exact argmax_lt_length m0 mrest
  -- the weight at index 3 is present and not bad
  have h3W : 3 < (bfWeights dist lg obs).length := by omega
  have hw3mem : (bfWeights dist lg obs).getD 3 F.nan ∈ bfWeights dist lg obs := by
    rw [List.getD_eq_getElem _ _ h3W]
    exact List.getElem_mem h3W
  have hw3 : ¬ ((bfWeights dist lg obs).getD 3 F.nan).isBad := hW _ hw3mem
  have hm3 : (bfMasked dist lg obs).getD 3 F.nan = (bfWeights dist lg obs).getD 3 F.nan :=
    bfMasked_getD_interior dist lg h6 (by omega) (by omega)
  -- the argmax cannot sit at a boundary position
  have hnotb : ¬ (i = 0 ∨ i = 1 ∨ i = 2 ∨ i = obs.length - 1 ∨ i = obs.length - 2) := by
    intro hp
    have hval : (bfMasked dist lg obs).getD i F.nan = F.ninf :=
      bfMasked_getD_boundary dist lg h6 hp
    have h3M : 3 < (bfMasked dist lg obs).length := by omega
    have hmax := argmax_is_max m0 mrest ((bfMasked dist lg obs).getD 3 F.nan)
      (by rw [← hM, List.getD_eq_getElem _ _ h3M]; exact List.getElem_mem h3M)
    rw [← hM, ← hi, hval, hm3] at hmax
    exact hmax (F.lt_ninf_of_not_isBad hw3)
  push_neg at hnotb
  omega

/-- A change point record: absolute index, log odds, and the segment whose
scoring produced it (`{'ts': ts, 'log_odds': log_odds, 'start_end': (start, end)}`). -/
structure CP where
  ts : Nat
  logOdds : F
  se : Nat × Nat

/-- The slice `obs[start:end]` passed to the scorer by `_split`. -/
def seg (obs : List ℝ) (s e : Nat) : List ℝ := (obs.drop s).take (e - s)

/-- The recursive segmenter `_split`: score the segment; on no result stop,
otherwise record the change point at `ts = start + i` and recurse on
`[start, ts)` and `[ts, end)`.  The recursion terminates because a
successful score always returns an interior index (`bf_some_bounds`). -/
def splitSeg (dist : Dist) (lg : Nat → ℝ) (θ : ℝ) (obs : List ℝ) (s e : Nat) :
    Except Unit (List CP) :=
  match hr : bf dist lg θ (seg obs s e) with
  | Except.error u => Except.error u
  | Except.ok none => Except.ok []
  | Except.ok (some (i, lo)) =>
    match splitSeg dist lg θ obs s (s + i), splitSeg dist lg θ obs (s + i) e with
    | Except.error u, _ => Except.error u
    | Except.ok _, Except.error u => Except.error u
    | Except.ok l, Except.ok r =>
        Except.ok ({ ts := s + i, logOdds := lo, se := (s, e) } :: (l ++ r))
termination_by e - s
decreasing_by
  · have hb := bf_some_bounds hr
    have hlen : (seg obs s e).length = min (e - s) (obs.length - s) := by simp [seg]
    omega
  · have hb := bf_some_bounds hr
    have hlen : (seg obs s e).length = min (e - s) (obs.length - s) := by simp [seg]
    omega

/-- A segment of fewer than six points is never split. -/
theorem splitSeg_small {dist : Dist} {lg : Nat → ℝ} {θ : ℝ} {obs : List ℝ}
    {s e : Nat} (h : (seg obs s e).length < 6) :
    splitSeg dist lg θ obs s e = Except.ok [] := by
  have hbf : bf dist lg θ (seg obs s e) = Except.ok none := by
    unfold bf; rw [if_pos h]
  rw [splitSeg.eq_def]
  split
  · rename_i u heq; rw [hbf] at heq; cases heq
  · rfl
  · rename_i i lo heq; rw [hbf] at heq; cases heq

/-- Unfolding one successful step of the segmenter. -/
theorem splitSeg_step {dist : Dist} {lg : Nat → ℝ} {θ : ℝ} {obs : List ℝ}
    {s e i : Nat} {lo : F}
    (h : bf dist lg θ (seg obs s e) = Except.ok (some (i, lo)))
    {l r : List CP}
    (hl : splitSeg dist lg θ obs s (s + i) = Except.ok l)
    (hr2 : splitSeg dist lg θ obs (s + i) e = Except.ok r) :
    splitSeg dist lg θ obs s e =
      Except.ok ({ ts := s + i, logOdds := lo, se := (s, e) } :: (l ++ r)) := by
  rw [splitSeg.eq_def]
  split
  · rename_i u heq; rw [h] at heq; cases heq
  · rename_i heq; rw [h] at heq; cases heq
  · rename_i i' lo' heq
    rw [h] at heq
    injection heq with heq'
    injection heq' with heq''
    obtain ⟨rfl, rfl⟩ : i' = i ∧ lo' = lo :=
      ⟨(congrArg Prod.fst heq'').symm, (congrArg Prod.snd heq'').symm⟩
    rw [hl, hr2]

/-- Every record produced by the segmenter lies strictly inside its own
recorded segment and inside the enclosing window and trajectory. -/
theorem splitSeg_mem {dist : Dist} {lg : Nat → ℝ} {θ : ℝ} {obs : List ℝ} :
    ∀ (n s e : Nat) (l : List CP), e - s = n →
      splitSeg dist lg θ obs s e = Except.ok l →
      ∀ r ∈ l, s + 3 ≤ r.ts ∧ r.ts + 3 ≤ e ∧ r.ts + 3 ≤ obs.length ∧
        r.se.1 + 3 ≤ r.ts ∧ r.ts + 3 ≤ r.se.2 := by
  intro n
  induction n using Nat.strong_induction_on with
  | _ n ih =>
    intro s e l hn hs r hr
    rw [splitSeg.eq_def] at hs
    split at hs
    · cases hs
    · rename_i heq
      injection hs with hs'
      subst hs'
      exact absurd hr (List.not_mem_nil r)
    · rename_i i lo heq
      have hb := bf_some_bounds heq
      have hlen : (seg obs s e).length = min (e - s) (obs.length - s) := by simp [seg]
      split at hs
      · cases hs
      · cases hs
      · rename_i l' r' hl' hr'
        injection hs with hs'
        subst hs'
        rcases List.mem_cons.1 hr with rfl | hr2
        · refine ⟨?_, ?_, ?_, ?_, ?_⟩ <;> simp <;> omega
        · rcases List.mem_append.1 hr2 with hm | hm
          · have := ih i (by omega) s (s + i) l' (by omega) hl' r hm
            exact ⟨this.1, by omega, this.2.2.1, this.2.2.2.1, this.2.2.2.2⟩
          · have := ih (e - (s + i)) (by omega) (s + i) e r' rfl hr' r hm
            exact ⟨by omega, this.2.1, this.2.2.1, this.2.2.2.1, this.2.2.2.2⟩

/-- A state emission record: inclusive partition, sample mean, sample sigma
(`{'partition': (a, b), 'sample_mu': mu, 'sample_sigma': var}`). -/
structure SE where
  partition : Nat × Nat
  mu : F
  sigma : F

/-- The half-open slice `obs[a:b]` used by the reconstructor to compute a
partition's sample mean and variance. -/
def sliceHO (obs : List ℝ) (a b : Nat) : List ℝ := (obs.drop a).take (b - a)

/-- The partitions appended inside the reconstruction loop: `(j+1, ts[i+1])`
for consecutive change points, and `(ts[-1]+1, length-1)` for the last. -/
def partsTail (L : Nat) : List Nat → List (Nat × Nat)
  | [] => []
  | [t] => [(t + 1, L - 1)]
  | t :: t' :: r => (t + 1, t') :: partsTail L (t' :: r)

/-- All partitions built by `_generate_step_function` from the sorted change
points: `(0, ts[0])` followed by the loop's partitions. -/
def partsOf (L : Nat) (ts : List Nat) : List (Nat × Nat) :=
  match ts with
  | [] => []
  | t :: _ => (0, t) :: partsTail L ts

/-- The state emission record of one partition `(a, b)`: the distribution's
mean and variance over the half-open slice `obs[a:b]`. -/
def seOf (dist : Dist) (obs : List ℝ) (p : Nat × Nat) : SE :=
  ⟨p, (dist.meanVar (sliceHO obs p.1 p.2)).1, (dist.meanVar (sliceHO obs p.1 p.2)).2⟩

/-- One slice-assignment of the reconstruction loop:
`step[partition[0] : partition[1]+1] = exp(sample_mu)`. -/
def writeOne (arr : List F) (se : SE) : List F :=
  arr.mapIdx (fun j x =>
    if se.partition.1 ≤ j ∧ j ≤ se.partition.2 then F.exp se.mu else x)

/-- The reconstructor `_generate_step_function`, given the sorted change
points of a trajectory: with no change point the step function is
`np.ones(length-1) * exp(mean)`; otherwise the state emission records are
built from the partitions and the step function is `np.ones(length)`
overwritten slice by slice. -/
def genStep (dist : Dist) (obs : List ℝ) (ts : List Nat) : List SE × List F :=
  match ts with
  | [] => ([], (List.replicate (obs.length - 1) (F.fin 1)).map
      (fun x => x.mul (F.exp (dist.meanVar obs).1)))
  | _ :: _ =>
    ((partsOf obs.length ts).map (seOf dist obs),
      ((partsOf obs.length ts).map (seOf dist obs)).foldl writeOne
        (List.replicate obs.length (F.fin 1)))

/-- The sorted change points of a trajectory's record list (`ts.sort()`). -/
def sortedTs (cps : List CP) : List Nat := List.insertionSort (· ≤ ·) (cps.map CP.ts)

/-- Detection plus reconstruction for one trajectory: run the segmenter on
the whole range, sort the recorded change points, reconstruct. -/
def detectTraj (dist : Dist) (lg : Nat → ℝ) (θ : ℝ) (obs : List ℝ) :
    Except Unit (List CP × List SE × List F) :=
  match splitSeg dist lg θ obs 0 obs.length with
  | Except.error u => Except.error u
  | Except.ok cps =>
      Except.ok (cps, (genStep dist obs (sortedTs cps)).1, (genStep dist obs (sortedTs cps)).2)

/-- Detection over all trajectories, aborting on the first raised error. -/
def detectAll (dist : Dist) (lg : Nat → ℝ) (θ : ℝ) :
    List (List ℝ) → Except Unit (List (List CP × List SE × List F))
  | [] => Except.ok []
  | o :: os =>
    match detectTraj dist lg θ o, detectAll dist lg θ os with
    | Except.error u, _ => Except.error u
    | Except.ok _, Except.error u => Except.error u
    | Except.ok r, Except.ok rs => Except.ok (r :: rs)

/-- The detector state: the deep-copied observations, the configuration,
the log-gamma table, and the per-trajectory result collections. -/
structure Detector where
  observations : List (List ℝ)
  dist : Dist
  threshold : ℝ
  loggamma : List ℝ
  changePoints : List (List CP)
  stateEmission : List (List SE)
  stepFunction : List (List F)

/-- The constructor: store the observations, the threshold and the
distribution, and build the log-gamma table up to the longest trajectory. -/
def Detector.mk0 (obs : List (List ℝ)) (dist : Dist) (θ : ℝ) : Detector :=
  ⟨obs, dist, θ, loggammaTable ((obs.map List.length).foldl max 0), [], [], []⟩

/-- The driver `detect_cp`: run detection and reconstruction on every
trajectory and store the per-trajectory results. -/
def detectCp (d : Detector) : Except Unit Detector :=
  match detectAll d.dist (tabLookup d.loggamma) d.threshold d.observations with
  | Except.error u => Except.error u
  | Except.ok rs => Except.ok { d with
      changePoints := rs.map (fun r => r.1),
      stateEmission := rs.map (fun r => r.2.1),
      stepFunction := rs.map (fun r => r.2.2) }

/-- Membership of a sample index in an inclusive partition. -/
def inPart (p : Nat × Nat) (j : Nat) : Prop := p.1 ≤ j ∧ j ≤ p.2

/-- A partition list exactly covers `[0, L)`: every index below `L` lies in
some partition, no other index does, and no index lies in two partitions. -/
def coversExactly (ps : List (Nat × Nat)) (L : Nat) : Prop :=
  (∀ j, j < L ↔ ∃ p ∈ ps, inPart p j) ∧
    ps.Pairwise (fun p q => ∀ j, ¬ (inPart p j ∧ inPart q j))

/-- Every partition built by the reconstruction loop starts after the first
change point of its (sorted) argument. -/
theorem partsTail_lb {L : Nat} :
    ∀ (r : List Nat) (t : Nat), (t :: r).Sorted (· ≤ ·) →
      ∀ p ∈ partsTail L (t :: r), t + 1 ≤ p.1 := by
  intro r
  induction r with
  | nil =>
    intro t _ p hp
    simp only [partsTail, List.mem_singleton] at hp
    subst hp
    simp
  | cons t' r' ih =>
    intro t hs p hp
    rw [partsTail] at hp
    rcases List.mem_cons.1 hp with rfl | hp'
    · simp
    · have ht : t ≤ t' := (List.sorted_cons.1 hs).1 t' (by simp)
      have := ih t' (List.sorted_cons.1 hs).2 p hp'
      omega

/-- The partitions of the reconstruction loop exactly fill the inclusive
range from `t + 1` to `L - 1`. -/
theorem partsTail_covers {L : Nat} :
    ∀ (r : List Nat) (t : Nat), (t :: r).Sorted (· ≤ ·) →
      (∀ x ∈ t :: r, x + 3 ≤ L) →
      ∀ j, (t + 1 ≤ j ∧ j ≤ L - 1) ↔ ∃ p ∈ partsTail L (t :: r), inPart p j := by
  intro r
  induction r with
  | nil =>
    intro t _ _ j
    simp [partsTail, inPart]
  | cons t' r' ih =>
    intro t hs hub j
    have ht : t ≤ t' := (List.sorted_cons.1 hs).1 t' (by simp)
    have ht'L : t' + 3 ≤ L := hub t' (by simp)
    have ihj := ih t' (List.sorted_cons.1 hs).2 (fun x hx => hub x (List.mem_cons_of_mem _ hx)) j
    rw [partsTail]
    constructor
    · intro hj
      by_cases hjt : j ≤ t'
      · exact ⟨(t + 1, t'), List.mem_cons_self _ _, by simp [inPart]; omega⟩
      · obtain ⟨p, hp, hip⟩ := ihj.1 (by omega)
        exact ⟨p, List.mem_cons_of_mem _ hp, hip⟩
    · rintro ⟨p, hp, hip⟩
      rcases List.mem_cons.1 hp with rfl | hp'
      · simp only [inPart] at hip
        omega
      · have := ihj.2 ⟨p, hp', hip⟩
        omega

/-- The partitions of the reconstruction loop are pairwise disjoint. -/
theorem partsTail_pairwise {L : Nat} :
    ∀ (r : List Nat) (t : Nat), (t :: r).Sorted (· ≤ ·) →
      (partsTail L (t :: r)).Pairwise
        (fun p q => ∀ j, ¬ (inPart p j ∧ inPart q j)) := by
  intro r
  induction r with
  | nil => intro t _; simp [partsTail]
  | cons t' r' ih =>
    intro t hs
    rw [partsTail]
    refine List.Pairwise.cons ?_ (ih t' (List.sorted_cons.1 hs).2)
    intro q hq j ⟨h1, h2⟩
    have := @partsTail_lb L r' t' (List.sorted_cons.1 hs).2 q hq
    simp only [inPart] at h1 h2
    omega

/-- With at least one change point, the partitions built by the
reconstructor exactly cover `[0, length)` with no overlap and no gap. -/
theorem partsOf_covers {L : Nat} {ts : List Nat} (hne : ts ≠ [])
    (hs : ts.Sorted (· ≤ ·)) (hub : ∀ x ∈ ts, x + 3 ≤ L) :
    coversExactly (partsOf L ts) L := by
  obtain ⟨t, r, rfl⟩ : ∃ t r, ts = t :: r := by
    cases ts with
    | nil => exact absurd rfl hne
    | cons a l => exact ⟨a, l, rfl⟩
  have htL : t + 3 ≤ L := hub t (by simp)
  constructor
  · intro j
    rw [partsOf]
    constructor
    · intro hj
      by_cases hjt : j ≤ t
      · exact ⟨(0, t), List.mem_cons_self _ _, by simp [inPart]; omega⟩
      · obtain ⟨p, hp, hip⟩ := (partsTail_covers r t hs hub j).1 (by omega)
        exact ⟨p, List.mem_cons_of_mem _ hp, hip⟩
    · rintro ⟨p, hp, hip⟩
      rcases List.mem_cons.1 hp with rfl | hp'
      · simp only [inPart] at hip
        omega
      · have := (partsTail_covers r t hs hub j).2 ⟨p, hp', hip⟩
        omega
  · rw [partsOf]
    refine List.Pairwise.cons ?_ (partsTail_pairwise r t hs)
    intro q hq j ⟨h1, h2⟩
    have := @partsTail_lb L r t hs q hq
    simp only [inPart] at h1 h2
    omega

/-- A slice assignment does not change the array length. -/
theorem writeOne_length (arr : List F) (se : SE) :
    (writeOne arr se).length = arr.length := by
  simp [writeOne]

/-- The reconstruction loop does not change the array length. -/
theorem foldl_write_length :
    ∀ (l : List SE) (arr : List F), (l.foldl writeOne arr).length = arr.length := by
  intro l
  induction l with
  | nil => intro arr; rfl
  | cons se rest ih =>
    intro arr
    rw [List.foldl_cons, ih, writeOne_length]

/-- The value of one slice assignment at an index. -/
theorem writeOne_getD {arr : List F} {se : SE} {j : Nat} (hj : j < arr.length) :
    (writeOne arr se).getD j F.nan =
      if se.partition.1 ≤ j ∧ j ≤ se.partition.2 then F.exp se.mu
      else arr.getD j F.nan := by
  have hj' : j < (writeOne arr se).length := by rw [writeOne_length]; exact hj
  rw [List.getD_eq_getElem _ _ hj', List.getD_eq_getElem _ _ hj]
  simp [writeOne]

/-- Indices touched by no partition of the loop keep their current value. -/
theorem foldl_write_miss :
    ∀ (l : List SE) (arr : List F) (j : Nat), j < arr.length →
      (∀ se ∈ l, ¬ inPart se.partition j) →
      (l.foldl writeOne arr).getD j F.nan = arr.getD j F.nan := by
  intro l
  induction l with
  | nil => intro arr j _ _; rfl
  | cons se rest ih =>
    intro arr j hj hmiss
    rw [List.foldl_cons,
      ih (writeOne arr se) j (by rw [writeOne_length]; exact hj)
        (fun q hq => hmiss q (List.mem_cons_of_mem _ hq)),
      writeOne_getD hj, if_neg]
    simpa [inPart] using hmiss se (List.mem_cons_self _ _)

/-- If the partitions are pairwise disjoint, an index inside the partition
of a record receives exactly that record's `exp(sample_mu)`. -/
theorem foldl_write_hit :
    ∀ (l : List SE) (arr : List F) (j : Nat) (se0 : SE), j < arr.length →
      l.Pairwise (fun a b => ∀ k, ¬ (inPart a.partition k ∧ inPart b.partition k)) →
      se0 ∈ l → inPart se0.partition j →
      (l.foldl writeOne arr).getD j F.nan = F.exp se0.mu := by
  intro l
  induction l with
  | nil => intro arr j se0 _ _ h0 _; exact absurd h0 (List.not_mem_nil se0)
  | cons se rest ih =>
    intro arr j se0 hj hpw h0 hin
    obtain ⟨hhead, htail⟩ := List.pairwise_cons.1 hpw
    rcases List.mem_cons.1 h0 with heq | h0'
    · rw [heq] at hin ⊢
      rw [List.foldl_cons,
        foldl_write_miss rest (writeOne arr se) j
          (by rw [writeOne_length]; exact hj)
          (fun q hq hqj => hhead q hq j ⟨hin, hqj⟩),
        writeOne_getD hj, if_pos (by simpa [inPart] using hin)]
    · exact ih (writeOne arr se) j se0 (by rw [writeOne_length]; exact hj) htail h0' hin

/-- The spec's description of the induced partitions:
`[0, ts_0], [ts_0+1, ts_1], ..., [ts_last+1, length-1]`. -/
def specParts (L : Nat) (ts : List Nat) : List (Nat × Nat) :=
  match ts with
  | [] => []
  | t :: _ => (0, t) ::
      ((ts.zip ts.tail).map (fun ab => (ab.1 + 1, ab.2)) ++ [(ts.getLastD 0 + 1, L - 1)])

/-- The loop partitions of the code agree with the spec's induced
partitions. -/
theorem partsTail_eq_spec {L : Nat} :
    ∀ (r : List Nat) (t : Nat),
      partsTail L (t :: r) =
        ((t :: r).zip r).map (fun ab => (ab.1 + 1, ab.2)) ++
          [((t :: r).getLastD 0 + 1, L - 1)] := by
  intro r
  induction r with
  | nil => intro t; simp [partsTail]
  | cons t' r' ih =>
    intro t
    rw [partsTail, ih t']
    simp [List.getLastD_cons]

/-- The code's partition list is exactly the spec's induced partition list. -/
theorem partsOf_eq_specParts (L : Nat) (ts : List Nat) :
    partsOf L ts = specParts L ts := by
  cases ts with
  | nil => rfl
  | cons t r =>
    rw [partsOf, specParts, partsTail_eq_spec]
    simp

/-- The last partition of the loop is `(ts_last + 1, L - 1)`. -/
theorem partsTail_getLastD {L : Nat} :
    ∀ (r : List Nat) (t : Nat) (d : Nat × Nat),
      (partsTail L (t :: r)).getLastD d = ((t :: r).getLastD 0 + 1, L - 1) := by
  intro r
  induction r with
  | nil => intro t d; simp [partsTail]
  | cons t' r' ih =>
    intro t d
    rw [partsTail, List.getLastD_cons, ih t' (t + 1, t')]
    simp [List.getLastD_cons]

/-- The last element of a mapped list. -/
theorem getLastD_map {α β : Type} (f : α → β) :
    ∀ (l : List α) (d : α), (l.map f).getLastD (f d) = f (l.getLastD d) := by
  intro l
  induction l with
  | nil => intro d; rfl
  | cons a l' ih =>
    intro d
    rw [List.map_cons, List.getLastD_cons, List.getLastD_cons, ih a]

/-- Unfolding a successful per-trajectory detection. -/
theorem detectTraj_ok {dist : Dist} {lg : Nat → ℝ} {θ : ℝ} {obs : List ℝ}
    {cps : List CP} {ses : List SE} {st : List F}
    (h : detectTraj dist lg θ obs = Except.ok (cps, ses, st)) :
    splitSeg dist lg θ obs 0 obs.length = Except.ok cps ∧
      ses = (genStep dist obs (sortedTs cps)).1 ∧
      st = (genStep dist obs (sortedTs cps)).2 := by
  unfold detectTraj at h
  split at h
  · cases h
  · rename_i cps' heq
    injection h with h'
    obtain ⟨h1, h2⟩ := Prod.mk.injEq .. ▸ h'
    obtain ⟨h3, h4⟩ := Prod.mk.injEq .. ▸ h2
    subst h1
    exact ⟨heq, h3.symm, h4.symm⟩

/-- The sorted change points are sorted. -/
theorem sortedTs_sorted (cps : List CP) : (sortedTs cps).Sorted (· ≤ ·) :=
  List.sorted_insertionSort _ _

/-- Membership in the sorted change points. -/
theorem sortedTs_mem (cps : List CP) (x : Nat) :
    x ∈ sortedTs cps ↔ ∃ r ∈ cps, r.ts = x := by
  rw [sortedTs, (List.perm_insertionSort _ _).mem_iff, List.mem_map]

/-- The sorted change points are empty exactly when no record exists. -/
theorem sortedTs_nil_iff (cps : List CP) : sortedTs cps = [] ↔ cps = [] := by
  constructor
  · intro h
    have := (@List.perm_insertionSort Nat (· ≤ ·) _ (cps.map CP.ts)).length_eq
    rw [sortedTs] at h
    rw [h] at this
    simpa using this.symm
  · intro h
    subst h
    rfl

/-- Change points recorded for a full-trajectory run are interior to the
trajectory. -/
theorem sortedTs_bounds {dist : Dist} {lg : Nat → ℝ} {θ : ℝ} {obs : List ℝ}
    {cps : List CP} (h : splitSeg dist lg θ obs 0 obs.length = Except.ok cps) :
    ∀ x ∈ sortedTs cps, 3 ≤ x ∧ x + 3 ≤ obs.length := by
  intro x hx
  obtain ⟨r, hr, rfl⟩ := (sortedTs_mem cps x).1 hx
  have := splitSeg_mem (obs.length - 0) 0 obs.length cps rfl h r hr
  omega

/-- Unfolding a successful full detection run. -/
theorem detectCp_ok {d d' : Detector} (h : detectCp d = Except.ok d') :
    ∃ rs, detectAll d.dist (tabLookup d.loggamma) d.threshold d.observations =
        Except.ok rs ∧
      d' = { d with
        changePoints := rs.map (fun r => r.1),
        stateEmission := rs.map (fun r => r.2.1),
        stepFunction := rs.map (fun r => r.2.2) } := by
  unfold detectCp at h
  split at h
  · cases h
  · rename_i rs heq
    injection h with h'
    exact ⟨rs, heq, h'.symm⟩

/-- A first concrete trajectory: three identical points followed by three
distinct ones.  Its left half has variance `0`, which drives the weight at
split `3` (and hence the log odds) to `+inf`. -/
def exObs1 : List ℝ := [1, 1, 1, 2, 3, 4]

/-- The lookup into the table a detector built for length-6 trajectories. -/
def exLg : Nat → ℝ := tabLookup (loggammaTable 6)

/-- Mean and variance of the first example trajectory. -/
theorem ex1_mv : Dist.normal.meanVar exObs1 = (F.fin 2, F.fin (4 / 3)) := by
  norm_num [Dist.meanVar, rmean, rvar, exObs1]

/-- The weight at candidate split `3` of the first example is `+inf`:
`var_a = 0`, so `(-0.5*n_a + 1)*log(var_a) = (-0.5)*(-inf) = +inf`. -/
theorem ex1_w3 : bfWeight Dist.normal exLg exObs1 3 = F.pinf := by
  have hA : Dist.normal.meanVar (exObs1.take 3) = (F.fin 1, F.fin 0) := by
    norm_num [Dist.meanVar, rmean, rvar, exObs1]
  have hB : Dist.normal.meanVar (exObs1.drop 3) = (F.fin 3, F.fin (2 / 3)) := by
    norm_num [Dist.meanVar, rmean, rvar, exObs1]
  rw [bfWeight, hA, hB]
  norm_num [exObs1, F.log, F.mul, F.add, F.sub, F.neg, F.sq]

/-- The full weight array of the first example. -/
theorem ex1_weights : bfWeights Dist.normal exLg exObs1 =
    [F.fin 0, F.fin 0, F.fin 0, F.pinf, F.fin 0, F.fin 0] := by
  have h5 : exObs1.length - 5 = 1 := by norm_num [exObs1]
  rw [bfWeights, h5]
  rw [show List.range' 3 1 = [3] from rfl, List.map_cons, List.map_nil, ex1_w3]
  rfl

/-- The denominator of the first example is finite. -/
theorem ex1_denom : ∃ dv, bfDenom Dist.normal exLg exObs1 = F.fin dv := by
  rw [bfDenom, ex1_mv]
  norm_num [exObs1, F.mul, F.log, F.add]

/-- The numerator of the first example is `+inf`. -/
theorem ex1_num : bfNum Dist.normal exLg exObs1 = F.pinf := by
  rw [bfNum, ex1_weights, ex1_mv]
  norm_num [F.listMean, F.abs, F.log, F.add, F.div, List.foldl]

/-- The log odds of the first example are `+inf`. -/
theorem ex1_odds : bfLogOdds Dist.normal exLg exObs1 = F.pinf := by
  obtain ⟨dv, hden⟩ := ex1_denom
  rw [bfLogOdds, ex1_num, hden]
  rfl

/-- The masked weight array of the first example. -/
theorem ex1_mask : bfMasked Dist.normal exLg exObs1 =
    [F.ninf, F.ninf, F.ninf, F.pinf, F.ninf, F.ninf] := by
  rw [bfMasked, ex1_weights]
  rfl

/-- The scorer on the first example succeeds with split index `3` and the
non-finite log odds `+inf`. -/
theorem bf_ex1 : bf Dist.normal exLg 0 exObs1 = Except.ok (some (3, F.pinf)) := by
  unfold bf
  rw [if_neg (by norm_num [exObs1]), ex1_odds, ex1_mask]
  norm_num [F.isnan, F.lt, F.argmax, argmaxGo]

/-- A second concrete trajectory with overall mean exactly `0`:
`log(abs(mean)) = log 0 = -inf` drives the log odds to `-inf` without any
NaN appearing. -/
def exObs2 : List ℝ := [1, 2, 3, -1, -2, -3]

/-- Mean and variance of the second example trajectory. -/
theorem ex2_mv : Dist.normal.meanVar exObs2 = (F.fin 0, F.fin (14 / 3)) := by
  norm_num [Dist.meanVar, rmean, rvar, exObs2]

/-- The single weight of the second example is finite. -/
theorem ex2_w3 : ∃ wv, bfWeight Dist.normal exLg exObs2 3 = F.fin wv := by
  have hA : Dist.normal.meanVar (exObs2.take 3) = (F.fin 2, F.fin (2 / 3)) := by
    norm_num [Dist.meanVar, rmean, rvar, exObs2]
  have hB : Dist.normal.meanVar (exObs2.drop 3) = (F.fin (-2), F.fin (2 / 3)) := by
    norm_num [Dist.meanVar, rmean, rvar, exObs2]
  rw [bfWeight, hA, hB]
  norm_num [exObs2, F.log, F.mul, F.add, F.sub, F.neg, F.sq]

/-- The denominator of the second example is finite. -/
theorem ex2_denom : ∃ dv, bfDenom Dist.normal exLg exObs2 = F.fin dv := by
  rw [bfDenom, ex2_mv]
  norm_num [exObs2, F.mul, F.log, F.add]

/-- The log odds of the second example are `-inf`: the numerator contains
`log 0 = -inf` and everything else stays finite. -/
theorem ex2_odds : bfLogOdds Dist.normal exLg exObs2 = F.ninf := by
  obtain ⟨wv, hw⟩ := ex2_w3
  obtain ⟨dv, hden⟩ := ex2_denom
  have hweights : bfWeights Dist.normal exLg exObs2 =
      [F.fin 0, F.fin 0, F.fin 0, F.fin wv, F.fin 0, F.fin 0] := by
    have h5 : exObs2.length - 5 = 1 := by norm_num [exObs2]
    rw [bfWeights, h5]
    rw [show List.range' 3 1 = [3] from rfl, List.map_cons, List.map_nil, hw]
    rfl
  have hnum : bfNum Dist.normal exLg exObs2 = F.ninf := by
    rw [bfNum, hweights, ex2_mv]
    norm_num [F.listMean, F.abs, F.log, F.add, F.div, List.foldl]
  rw [bfLogOdds, hnum, hden]
  rfl

/-- The scorer on the second example returns no result: its `-inf` log odds
fall below the threshold, and no error is raised. -/
theorem bf_ex2 : bf Dist.normal exLg 0 exObs2 = Except.ok none := by
  unfold bf
  rw [if_neg (by norm_num [exObs2]), ex2_odds]
  norm_num [F.isnan, F.lt]

/-- The change point record the segmenter produces on the first example. -/
def exCp1 : CP := ⟨3, F.pinf, (0, 6)⟩

/-- The segmenter on the first example records exactly one change point. -/
theorem split_ex1 : splitSeg Dist.normal exLg 0 exObs1 0 6 = Except.ok [exCp1] := by
  have h1 : seg exObs1 0 6 = exObs1 := by norm_num [seg, exObs1]
  have hleft : splitSeg Dist.normal exLg 0 exObs1 0 3 = Except.ok [] :=
    splitSeg_small (by norm_num [seg, exObs1])
  have hright : splitSeg Dist.normal exLg 0 exObs1 3 6 = Except.ok [] :=
    splitSeg_small (by norm_num [seg, exObs1])
  have hstep := @splitSeg_step Dist.normal exLg 0 exObs1 0 6 3 F.pinf (h1 ▸ bf_ex1) [] [] hleft hright
  simpa [exCp1] using hstep

/-- The sorted change points of the first example. -/
theorem ex1_sorted : sortedTs [exCp1] = [3] := by
  norm_num [sortedTs, exCp1, List.insertionSort, List.orderedInsert]

/-- The reconstruction of the first example: partitions `(0,3)` and `(4,5)`,
sample means over the half-open slices `[0,3)` and `[4,5)`, and a step
function whose six entries are all written. -/
theorem ex1_gen : genStep Dist.normal exObs1 [3] =
    ([⟨(0, 3), F.fin 1, F.fin 0⟩, ⟨(4, 5), F.fin 3, F.fin 0⟩],
      [F.exp (F.fin 1), F.exp (F.fin 1), F.exp (F.fin 1), F.exp (F.fin 1),
       F.exp (F.fin 3), F.exp (F.fin 3)]) := by
  have hse1 : seOf Dist.normal exObs1 (0, 3) = ⟨(0, 3), F.fin 1, F.fin 0⟩ := by
    norm_num [seOf, sliceHO, Dist.meanVar, rmean, rvar, exObs1]
  have hse2 : seOf Dist.normal exObs1 (4, 5) = ⟨(4, 5), F.fin 3, F.fin 0⟩ := by
    norm_num [seOf, sliceHO, Dist.meanVar, rmean, rvar, exObs1]
  have hparts : partsOf exObs1.length [3] = [(0, 3), (4, 5)] := by
    norm_num [partsOf, partsTail, exObs1]
  rw [genStep, hparts, List.map_cons, List.map_cons, List.map_nil, hse1, hse2]
  norm_num [exObs1, writeOne, List.foldl, List.replicate, inPart]

/-- The state emission records reconstructed for the first example. -/
def exSes1 : List SE := [⟨(0, 3), F.fin 1, F.fin 0⟩, ⟨(4, 5), F.fin 3, F.fin 0⟩]

/-- The step function reconstructed for the first example. -/
def exSt1 : List F :=
  [F.exp (F.fin 1), F.exp (F.fin 1), F.exp (F.fin 1), F.exp (F.fin 1),
   F.exp (F.fin 3), F.exp (F.fin 3)]

/-- Per-trajectory detection on the first example. -/
theorem traj_ex1 : detectTraj Dist.normal exLg 0 exObs1 =
    Except.ok ([exCp1], exSes1, exSt1) := by
  unfold detectTraj
  rw [show exObs1.length = 6 from by norm_num [exObs1], split_ex1]
  simp only [ex1_sorted, ex1_gen, exSes1, exSt1]

/-- Detection over the singleton collection holding the first example. -/
theorem all_ex1 : detectAll Dist.normal exLg 0 [exObs1] =
    Except.ok [([exCp1], exSes1, exSt1)] := by
  simp only [detectAll, traj_ex1]

/-- A detector constructed on the first example. -/
def exD1 : Detector := Detector.mk0 [exObs1] Dist.normal 0

/-- The state of that detector after a successful `detect_cp` run. -/
def exD1' : Detector :=
  ⟨[exObs1], Dist.normal, 0, loggammaTable 6, [[exCp1]], [exSes1], [exSt1]⟩

/-- The table of the first example's detector is sized to length 6. -/
theorem exD1_lg : exD1.loggamma = loggammaTable 6 := by
  norm_num [exD1, Detector.mk0, exObs1]

/-- A full detection run on the first example's detector. -/
theorem detect_ex1 : detectCp exD1 = Except.ok exD1' := by
  have hlg : tabLookup exD1.loggamma = exLg := by rw [exD1_lg]; rfl
  unfold detectCp
  rw [show exD1.dist = Dist.normal from rfl, show exD1.threshold = 0 from rfl,
    show exD1.observations = [exObs1] from rfl, hlg, all_ex1]
  rfl

/-- A short concrete trajectory (three points): too short for any split. -/
def exObs0 : List ℝ := [1, 2, 3]

/-- The lookup into the table a detector built for length-3 trajectories. -/
def exLg0 : Nat → ℝ := tabLookup (loggammaTable 3)

/-- The segmenter never splits the short example. -/
theorem split_ex0 : splitSeg Dist.normal exLg0 0 exObs0 0 3 = Except.ok [] :=
  splitSeg_small (by norm_num [seg, exObs0])

/-- Reconstruction of the short example with no change point: a constant
`exp(mean)` sequence of length `3 - 1 = 2`, and no state emission records. -/
theorem gen_ex0 : genStep Dist.normal exObs0 [] = ([], [F.exp (F.fin 2), F.exp (F.fin 2)]) := by
  rw [genStep]
  norm_num [Dist.meanVar, rmean, exObs0, List.replicate, F.mul, F.exp]

/-- Per-trajectory detection on the short example. -/
theorem traj_ex0 : detectTraj Dist.normal exLg0 0 exObs0 =
    Except.ok ([], [], [F.exp (F.fin 2), F.exp (F.fin 2)]) := by
  unfold detectTraj
  rw [show exObs0.length = 3 from by norm_num [exObs0], split_ex0]
  simp only [sortedTs, List.map_nil, List.insertionSort, gen_ex0]

/-- A detector constructed on the short example. -/
def exD0 : Detector := Detector.mk0 [exObs0] Dist.normal 0

/-- The state of that detector after a successful `detect_cp` run: no
change points, no state emission records, a constant step function. -/
def exD0' : Detector :=
  ⟨[exObs0], Dist.normal, 0, loggammaTable 3, [[]], [[]],
    [[F.exp (F.fin 2), F.exp (F.fin 2)]]⟩

/-- A full detection run on the short example's detector. -/
theorem detect_ex0 : detectCp exD0 = Except.ok exD0' := by
  have hlg : tabLookup exD0.loggamma = exLg0 := by
    norm_num [exD0, Detector.mk0, exObs0, exLg0]
  unfold detectCp
  rw [show exD0.dist = Dist.normal from rfl, show exD0.threshold = 0 from rfl,
    show exD0.observations = [exObs0] from rfl, hlg]
  simp only [detectAll, traj_ex0]
  rfl

/-- The last element with a default does not depend on the default for a
nonempty list. -/
theorem getLastD_ne_nil {α : Type} {l : List α} (h : l ≠ []) (d d' : α) :
    l.getLastD d = l.getLastD d' := by
  cases l with
  | nil => exact absurd rfl h
  | cons a l' => rw [List.getLastD_cons, List.getLastD_cons]

/-- The last element of a nonempty list is a member. -/
theorem getLastD_mem {α : Type} : ∀ (l : List α) (d : α), l ≠ [] → l.getLastD d ∈ l := by
  intro l
  induction l with
  | nil => intro d h; exact absurd rfl h
  | cons a l' ih =>
    intro d _
    rw [List.getLastD_cons]
    cases hl : l' with
    | nil => subst hl; simp [List.getLastD]
    | cons b l'' =>
      subst hl
      exact List.mem_cons_of_mem _ (ih a (by simp))

/-- Shared shape of a reconstruction with at least one change point: the
state emission partitions are the loop partitions, the step function has
the trajectory's length, and every index of an inclusive partition holds
that partition's `exp(sample_mu)`. -/
theorem recon_writes {dist : Dist} {lg : Nat → ℝ} {θ : ℝ} {obs : List ℝ}
    {cps : List CP} {ses : List SE} {st : List F}
    (h : detectTraj dist lg θ obs = Except.ok (cps, ses, st)) (hne : cps ≠ []) :
    ses = (partsOf obs.length (sortedTs cps)).map (seOf dist obs) ∧
      ses.map SE.partition = partsOf obs.length (sortedTs cps) ∧
      st.length = obs.length ∧
      (∀ se ∈ ses, ∀ j, inPart se.partition j → st.getD j F.nan = F.exp se.mu) := by
  obtain ⟨hsplit, hses, hst⟩ := detectTraj_ok h
  have hb := sortedTs_bounds hsplit
  have hs := sortedTs_sorted cps
  have htne : sortedTs cps ≠ [] := fun hc => hne ((sortedTs_nil_iff cps).1 hc)
  obtain ⟨t, r, hts⟩ : ∃ t r, sortedTs cps = t :: r := by
    cases hc : sortedTs cps with
    | nil => exact absurd hc htne
    | cons a l => exact ⟨a, l, rfl⟩
  have hcov := partsOf_covers htne hs (fun x hx => (hb x hx).2)
  have hses' : ses = (partsOf obs.length (sortedTs cps)).map (seOf dist obs) := by
    rw [hses, hts, genStep]
  have hst' : st = ((partsOf obs.length (sortedTs cps)).map (seOf dist obs)).foldl
      writeOne (List.replicate obs.length (F.fin 1)) := by
    rw [hst, hts, genStep, ← hts]
  have hmap : ses.map SE.partition = partsOf obs.length (sortedTs cps) := by
    rw [hses', List.map_map]
    have : SE.partition ∘ seOf dist obs = fun p => p := by
      funext p
      rfl
    rw [this, List.map_id']
  refine ⟨hses', hmap, ?_, ?_⟩
  · rw [hst', foldl_write_length, List.length_replicate]
  · intro se hse j hj
    have hjL : j < obs.length := by
      refine (hcov.1 j).2 ⟨se.partition, ?_, hj⟩
      rw [← hmap]
      exact List.mem_map_of_mem SE.partition hse
    have hpw : ses.Pairwise
        (fun a b => ∀ k, ¬ (inPart a.partition k ∧ inPart b.partition k)) := by
      rw [← hmap] at hcov
      have := hcov.2
      rw [List.pairwise_map] at this
      exact this
    rw [hst']
    rw [← hses']
    exact foldl_write_hit ses (List.replicate obs.length (F.fin 1)) j se
      (by rw [List.length_replicate]; exact hjL) hpw hse hj

/-- Transcription of the spec's closed form for the denominator:
`denom = 1.5*ln(pi) + (-n/2 + 0.5)*ln(n*var) + logGamma[n]`. -/
def specDenom (dist : Dist) (lg : Nat → ℝ) (obs : List ℝ) : F :=
  ((F.fin (1.5 * Real.log Real.pi)).add
      ((F.fin (-(obs.length : ℝ) / 2 + 0.5)).mul
        (F.log ((F.fin (obs.length : ℝ)).mul (dist.meanVar obs).2)))).add
    (F.fin (lg obs.length))

/-- Transcription of the spec's closed form for the weight of candidate
split `i`, with a left part of length `n_a = i` and a right part of length
`n_b = n - i`:
`w(i) = [(-0.5*n_a+0.5)*ln(n_a) + (-0.5*n_a+1)*ln(var_a) + logGamma[n_a]]
      + [(-0.5*n_b+0.5)*ln(n_b) + (-0.5*n_b+1)*ln(var_b) + logGamma[n_b]]
      - ln(var_a+var_b) - ln(mean_a^2*mean_b^2)`. -/
def specWeight (dist : Dist) (lg : Nat → ℝ) (obs : List ℝ) (i : Nat) : F :=
  let nb : Nat := obs.length - i
  let ma : F := (dist.meanVar (obs.take i)).1
  let va : F := (dist.meanVar (obs.take i)).2
  let mb : F := (dist.meanVar (obs.drop i)).1
  let vb : F := (dist.meanVar (obs.drop i)).2
  let partA : F :=
    (((F.fin (-0.5 * (i : ℝ) + 0.5)).mul (F.log (F.fin (i : ℝ)))).add
        ((F.fin (-0.5 * (i : ℝ) + 1)).mul (F.log va))).add (F.fin (lg i))
  let partB : F :=
    (((F.fin (-0.5 * (nb : ℝ) + 0.5)).mul (F.log (F.fin (nb : ℝ)))).add
        ((F.fin (-0.5 * (nb : ℝ) + 1)).mul (F.log vb))).add (F.fin (lg nb))
  ((partA.add partB).sub (F.log (va.add vb))).sub (F.log ((F.sq ma).mul (F.sq mb)))

/-- Transcription of the spec's aggregate numerator: `num = 2.5*ln(2) +
ln(|mean|) + mean of all weights including the five zero placeholders at
positions 0, 1, 2 and the last two positions`, with one weight per
candidate split `i` from `3` to `n-3` inclusive. -/
def specNum (dist : Dist) (lg : Nat → ℝ) (obs : List ℝ) : F :=
  ((F.fin (2.5 * Real.log 2)).add (F.log (F.abs (dist.meanVar obs).1))).add
    (F.listMean ([F.fin 0, F.fin 0, F.fin 0] ++
      (List.range' 3 (obs.length - 5)).map (specWeight dist lg obs) ++ [F.fin 0, F.fin 0]))

/-- Transcription of the spec's score: `log_odds = num - denom`. -/
def specLogOdds (dist : Dist) (lg : Nat → ℝ) (obs : List ℝ) : F :=
  (specNum dist lg obs).sub (specDenom dist lg obs)

/-- C1: for every segment of length `n >= 6` scored by the Bayes factor
scorer, the code's denominator, per-split weights (one for each candidate
split from `3` to `n-3` inclusive, left part of length `i`, right part of
length `n-i`), numerator (with the five zero placeholders included in the
weight mean) and log odds are exactly the spec's closed forms, and a
successful score returns exactly the spec's `num - denom`. -/
theorem c1_score_closed_forms (dist : Dist) (lg : Nat → ℝ) (θ : ℝ) (obs : List ℝ)
    (h6 : 6 ≤ obs.length) :
    bfDenom dist lg obs = specDenom dist lg obs ∧
      (∀ i, 3 ≤ i → i + 3 ≤ obs.length →
        bfWeight dist lg obs i = specWeight dist lg obs i) ∧
      bfNum dist lg obs = specNum dist lg obs ∧
      bfLogOdds dist lg obs = specLogOdds dist lg obs ∧
      (∀ i lo, bf dist lg θ obs = Except.ok (some (i, lo)) →
        lo = specLogOdds dist lg obs) := by
  have hw : ∀ i, 3 ≤ i → i + 3 ≤ obs.length →
      bfWeight dist lg obs i = specWeight dist lg obs i := by
    intro i h3 hi
    have hta : (obs.take i).length = i := by rw [List.length_take]; omega
    have hdr : (obs.drop i).length = obs.length - i := by rw [List.length_drop]
    simp only [bfWeight, specWeight, hta, hdr]
    exact F.sub_add_eq _ _ _
  have hnum : bfNum dist lg obs = specNum dist lg obs := by
    have hmap : (List.range' 3 (obs.length - 5)).map (bfWeight dist lg obs) =
        (List.range' 3 (obs.length - 5)).map (specWeight dist lg obs) := by
      apply List.map_congr_left
      intro i hi
      obtain ⟨k, hk, rfl⟩ := List.mem_range'.1 hi
      exact hw _ (by omega) (by omega)
    rw [bfNum, specNum, bfWeights, hmap]
  have hodds : bfLogOdds dist lg obs = specLogOdds dist lg obs := by
    rw [bfLogOdds, specLogOdds, hnum]
    rfl
  refine ⟨rfl, hw, hnum, hodds, ?_⟩
  intro i lo h
  rw [(bf_ok_some h).2.1, hodds]

/-- Witness for C1 at the concrete segment `[1, 1, 1, 2, 3, 4]`. -/
theorem c1_witness : 6 ≤ exObs1.length ∧
    bfLogOdds Dist.normal exLg exObs1 = specLogOdds Dist.normal exLg exObs1 :=
  ⟨by norm_num [exObs1],
    (c1_score_closed_forms Dist.normal exLg 0 exObs1 (by norm_num [exObs1])).2.2.2.1⟩

/-- A value whose `math.isnan` test is positive is NaN. -/
theorem F.eq_nan_of_isnan {x : F} (h : x.isnan = true) : x = F.nan := by
  cases x <;> simp [F.isnan] at h ⊢

/-- C2 (amended): the scorer returns "no result" exactly when the segment
is shorter than 6 points or the log odds fall below the threshold; a
returned result carries the computed log odds — never NaN, never `-inf`,
but possibly `+inf`, so not always finite — and a split index that never
equals `0`, `1`, `2`, `length-1` or `length-2`. -/
theorem c2_none_iff_and_interior (dist : Dist) (lg : Nat → ℝ) (θ : ℝ) (obs : List ℝ) :
    (bf dist lg θ obs = Except.ok none ↔
      (obs.length < 6 ∨ F.lt (bfLogOdds dist lg obs) (F.fin θ))) ∧
    (∀ i lo, bf dist lg θ obs = Except.ok (some (i, lo)) →
      lo = bfLogOdds dist lg obs ∧ lo.isnan = false ∧ lo ≠ F.ninf ∧
      i ≠ 0 ∧ i ≠ 1 ∧ i ≠ 2 ∧ i ≠ obs.length - 1 ∧ i ≠ obs.length - 2) := by
  constructor
  · unfold bf
    split_ifs with h1 h2 h3
    · simp [h1]
    · have hnan := F.eq_nan_of_isnan h2
      simp only [hnan]
      simp [F.lt, h1]
    · simp [h1, h3]
    · simp [h1, h3]
  · intro i lo h
    obtain ⟨h6, hlo, hnan, ht, _⟩ := bf_ok_some h
    obtain ⟨h3, hin⟩ := bf_some_bounds h
    subst hlo
    refine ⟨rfl, hnan, ?_, by omega, by omega, by omega, by omega, by omega⟩
    intro hc
    rw [hc] at ht
    exact ht trivial

/-- Counterexample to C2 as stated: on `[1, 1, 1, 2, 3, 4]` the scorer
returns a result whose log odds are `+inf`, which is not finite. -/
theorem c2_counterexample :
    bf Dist.normal exLg 0 exObs1 = Except.ok (some (3, F.pinf)) ∧
      F.pinf.isFinite = false :=
  ⟨bf_ex1, rfl⟩

/-- Witness for C2's amended theorem at the concrete success above. -/
theorem c2_witness : F.pinf = bfLogOdds Dist.normal exLg exObs1 ∧
    F.pinf.isnan = false ∧ F.pinf ≠ F.ninf ∧
    (3 : Nat) ≠ 0 ∧ (3 : Nat) ≠ 1 ∧ (3 : Nat) ≠ 2 ∧
    (3 : Nat) ≠ exObs1.length - 1 ∧ (3 : Nat) ≠ exObs1.length - 2 :=
  (c2_none_iff_and_interior Dist.normal exLg 0 exObs1).2 3 F.pinf bf_ex1

/-- C4 (amended): the scorer raises exactly when the segment is long enough
to be scored and the computed log odds are NaN.  An infinite log odds value
does not raise: `-inf` is silently treated as "below threshold" and `+inf`
can even be returned as a score.  A finite log odds never raises. -/
theorem c4_raise_iff_nan (dist : Dist) (lg : Nat → ℝ) (θ : ℝ) (obs : List ℝ) :
    (bf dist lg θ obs = Except.error () ↔
      6 ≤ obs.length ∧ (bfLogOdds dist lg obs).isnan = true) ∧
    ((bfLogOdds dist lg obs).isFinite = true → bf dist lg θ obs ≠ Except.error ()) := by
  have hmain : bf dist lg θ obs = Except.error () ↔
      6 ≤ obs.length ∧ (bfLogOdds dist lg obs).isnan = true := by
    unfold bf
    split_ifs with h1 h2 h3
    · simp; omega
    · simp [h2]; omega
    · simp [h2]
    · simp [h2]
  refine ⟨hmain, ?_⟩
  intro hfin heq
  obtain ⟨_, hnan⟩ := hmain.1 heq
  rw [F.eq_nan_of_isnan hnan] at hfin
  simp [F.isFinite] at hfin

/-- Counterexample to C4 as stated: on `[1, 2, 3, -1, -2, -3]` the log odds
are `-inf` — not a finite real number — yet no error is raised: the scorer
silently returns "no result". -/
theorem c4_counterexample : bfLogOdds Dist.normal exLg exObs2 = F.ninf ∧
    F.ninf.isFinite = false ∧ bf Dist.normal exLg 0 exObs2 = Except.ok none :=
  ⟨ex2_odds, rfl, bf_ex2⟩

/-- A third concrete trajectory whose log odds are finite. -/
def exObs3 : List ℝ := [1, 2, 3, 5, 4, 6]

/-- The log odds of the third example are finite: every intermediate value
stays finite because both halves have nonzero variance and nonzero mean. -/
theorem ex3_odds : ∃ v, bfLogOdds Dist.normal exLg exObs3 = F.fin v := by
  have hmv : Dist.normal.meanVar exObs3 = (F.fin (7 / 2), F.fin (35 / 12)) := by
    norm_num [Dist.meanVar, rmean, rvar, exObs3]
  have hw : ∃ wv, bfWeight Dist.normal exLg exObs3 3 = F.fin wv := by
    have hA : Dist.normal.meanVar (exObs3.take 3) = (F.fin 2, F.fin (2 / 3)) := by
      norm_num [Dist.meanVar, rmean, rvar, exObs3]
    have hB : Dist.normal.meanVar (exObs3.drop 3) = (F.fin 5, F.fin (2 / 3)) := by
      norm_num [Dist.meanVar, rmean, rvar, exObs3]
    rw [bfWeight, hA, hB]
    norm_num [exObs3, F.log, F.mul, F.add, F.sub, F.neg, F.sq]
  obtain ⟨wv, hw⟩ := hw
  have hweights : bfWeights Dist.normal exLg exObs3 =
      [F.fin 0, F.fin 0, F.fin 0, F.fin wv, F.fin 0, F.fin 0] := by
    have h5 : exObs3.length - 5 = 1 := by norm_num [exObs3]
    rw [bfWeights, h5]
    rw [show List.range' 3 1 = [3] from rfl, List.map_cons, List.map_nil, hw]
    rfl
  have hden : ∃ dv, bfDenom Dist.normal exLg exObs3 = F.fin dv := by
    rw [bfDenom, hmv]
    norm_num [exObs3, F.mul, F.log, F.add]
  have hnum : ∃ nv, bfNum Dist.normal exLg exObs3 = F.fin nv := by
    rw [bfNum, hweights, hmv]
    norm_num [F.listMean, F.abs, F.log, F.add, F.div, List.foldl]
  obtain ⟨dv, hden⟩ := hden
  obtain ⟨nv, hnum⟩ := hnum
  exact ⟨nv - dv, by rw [bfLogOdds, hnum, hden]; rfl⟩

/-- Witness for C4's amended theorem: a finite log odds never raises, and
the raise-iff-NaN equivalence instantiated at a concrete segment. -/
theorem c4_witness : bf Dist.normal exLg 0 exObs3 ≠ Except.error () := by
  obtain ⟨v, hv⟩ := ex3_odds
  exact (c4_raise_iff_nan Dist.normal exLg 0 exObs3).2 (by rw [hv]; rfl)

/-- C3 (amended): after detection and reconstruction of a trajectory that
recorded at least one change point, the union of the State-Emission
partitions exactly covers `[0, length)` with no overlap and no gap.  (With
zero change points the reconstructor records no partitions at all, so the
cover fails there — see the counterexample.) -/
theorem c3_partitions_cover (dist : Dist) (lg : Nat → ℝ) (θ : ℝ) (obs : List ℝ)
    (cps : List CP) (ses : List SE) (st : List F)
    (h : detectTraj dist lg θ obs = Except.ok (cps, ses, st)) (hne : cps ≠ []) :
    coversExactly (ses.map SE.partition) obs.length := by
  obtain ⟨_, hmap, _, _⟩ := recon_writes h hne
  obtain ⟨hsplit, _, _⟩ := detectTraj_ok h
  rw [hmap]
  exact partsOf_covers (fun hc => hne ((sortedTs_nil_iff cps).1 hc))
    (sortedTs_sorted cps) (fun x hx => (sortedTs_bounds hsplit x hx).2)

/-- Counterexample to C3 as stated: a trajectory with zero change points
records no State-Emission partitions at all, so their union does not cover
`[0, length)`. -/
theorem c3_counterexample : detectCp exD0 = Except.ok exD0' ∧
    exD0'.stateEmission = [[]] ∧
    ¬ coversExactly (([] : List SE).map SE.partition) exObs0.length := by
  refine ⟨detect_ex0, rfl, ?_⟩
  rintro ⟨hcov, -⟩
  obtain ⟨p, hp, -⟩ := (hcov 0).1 (by norm_num [exObs0])
  simp at hp

/-- Witness for C3's amended theorem at the first concrete example. -/
theorem c3_witness : detectTraj Dist.normal exLg 0 exObs1 =
      Except.ok ([exCp1], exSes1, exSt1) ∧
    coversExactly (exSes1.map SE.partition) exObs1.length :=
  ⟨traj_ex1, c3_partitions_cover Dist.normal exLg 0 exObs1 [exCp1] exSes1 exSt1
    traj_ex1 (by simp)⟩

/-- C5: the recursive segmenter terminates on every input — it is a total
function defined by well-founded recursion on the window size, which is
possible exactly because every accepted split is strictly interior: each
recorded change point `ts` satisfies `start < ts < end` for its own
segment, and any window of fewer than six points stops immediately. -/
theorem c5_split_terminates (dist : Dist) (lg : Nat → ℝ) (θ : ℝ) (obs : List ℝ)
    (s e : Nat) (l : List CP) (h : splitSeg dist lg θ obs s e = Except.ok l) :
    (∀ r ∈ l, r.se.1 < r.ts ∧ r.ts < r.se.2) ∧ (e - s < 6 → l = []) := by
  constructor
  · intro r hr
    have := splitSeg_mem (e - s) s e l rfl h r hr
    omega
  · intro hlt
    have hsmall : (seg obs s e).length < 6 := by
      simp only [seg, List.length_take, List.length_drop]
      omega
    have h2 := @splitSeg_small dist lg θ obs s e hsmall
    rw [h] at h2
    simpa using h2

/-- Witness for C5 at the first concrete example. -/
theorem c5_witness : splitSeg Dist.normal exLg 0 exObs1 0 6 = Except.ok [exCp1] ∧
    (exCp1.se.1 < exCp1.ts ∧ exCp1.ts < exCp1.se.2) :=
  ⟨split_ex1,
    (c5_split_terminates Dist.normal exLg 0 exObs1 0 6 [exCp1] split_ex1).1 exCp1 (by simp)⟩

/-- C6 (amended): with at least one recorded change point the step-function
array has the trajectory's length and the loop writes every partition as an
inclusive range — including the very last index: the final partition is
`(ts_last + 1, length - 1)` and its write covers `length - 1`, so the last
entry holds the last partition's `exp(sample_mu)` rather than the initial
fill value.  (What stops one early is the slice the last sample mean is
computed over, not the write.) -/
theorem c6_last_index_written (dist : Dist) (lg : Nat → ℝ) (θ : ℝ) (obs : List ℝ)
    (cps : List CP) (ses : List SE) (st : List F)
    (h : detectTraj dist lg θ obs = Except.ok (cps, ses, st)) (hne : cps ≠ []) :
    st.length = obs.length ∧
      (∀ se ∈ ses, ∀ j, inPart se.partition j → st.getD j F.nan = F.exp se.mu) ∧
      st.getD (obs.length - 1) F.nan =
        F.exp ((ses.getLastD ⟨(0, 0), F.nan, F.nan⟩).mu) := by
  obtain ⟨hses, hmap, hlen, hwrite⟩ := recon_writes h hne
  obtain ⟨hsplit, _, _⟩ := detectTraj_ok h
  have htne : sortedTs cps ≠ [] := fun hc => hne ((sortedTs_nil_iff cps).1 hc)
  obtain ⟨t, r, hts⟩ : ∃ t r, sortedTs cps = t :: r := by
    cases hc : sortedTs cps with
    | nil => exact absurd hc htne
    | cons a l => exact ⟨a, l, rfl⟩
  refine ⟨hlen, hwrite, ?_⟩
  -- the last record and its partition
  have hsesne : ses ≠ [] := by
    rw [hses, hts, partsOf]
    simp
  have hlast : ses.getLastD ⟨(0, 0), F.nan, F.nan⟩ =
      seOf dist obs ((partsOf obs.length (sortedTs cps)).getLastD (0, 0)) := by
    rw [getLastD_ne_nil hsesne _ (seOf dist obs (0, 0)), hses,
      getLastD_map (seOf dist obs) (partsOf obs.length (sortedTs cps)) (0, 0)]
  have hpl : (partsOf obs.length (sortedTs cps)).getLastD (0, 0) =
      ((sortedTs cps).getLastD 0 + 1, obs.length - 1) := by
    rw [hts, partsOf, List.getLastD_cons, partsTail_getLastD]
  have htl : (sortedTs cps).getLastD 0 + 3 ≤ obs.length := by
    have hm : (sortedTs cps).getLastD 0 ∈ sortedTs cps := getLastD_mem _ 0 htne
    exact (sortedTs_bounds hsplit _ hm).2
  have hmemlast : ses.getLastD ⟨(0, 0), F.nan, F.nan⟩ ∈ ses := getLastD_mem _ _ hsesne
  have hinlast : inPart (ses.getLastD ⟨(0, 0), F.nan, F.nan⟩).partition (obs.length - 1) := by
    rw [hlast, hpl]
    simp only [seOf, inPart]
    omega
  exact hwrite _ hmemlast _ hinlast

/-- Counterexample to C6 as stated: on the first example the very last
index of the step function is written (with `exp(3) ≠ 1`), so it does not
remain at its initial fill value, and the written ranges do not end one
before the trajectory's final index. -/
theorem c6_counterexample : detectCp exD1 = Except.ok exD1' ∧
    (exD1'.stepFunction.getD 0 []).getD (exObs1.length - 1) F.nan = F.exp (F.fin 3) ∧
    F.exp (F.fin 3) ≠ F.fin 1 := by
  refine ⟨detect_ex1, by norm_num [exD1', exSt1, exObs1], ?_⟩
  intro hc
  simp only [F.exp, F.fin.injEq] at hc
  nlinarith [Real.add_one_le_exp (3 : ℝ)]

/-- Witness for C6's amended theorem at the first concrete example. -/
theorem c6_witness : detectTraj Dist.normal exLg 0 exObs1 =
      Except.ok ([exCp1], exSes1, exSt1) ∧
    exSt1.length = exObs1.length ∧
    exSt1.getD (exObs1.length - 1) F.nan =
      F.exp ((exSes1.getLastD ⟨(0, 0), F.nan, F.nan⟩).mu) :=
  ⟨traj_ex1,
    (c6_last_index_written Dist.normal exLg 0 exObs1 [exCp1] exSes1 exSt1
      traj_ex1 (by simp)).1,
    (c6_last_index_written Dist.normal exLg 0 exObs1 [exCp1] exSes1 exSt1
      traj_ex1 (by simp)).2.2⟩

/-- C7 (amended): the sorted change points induce exactly the inclusive
partitions `[0, ts_0], [ts_0+1, ts_1], ..., [ts_last+1, length-1]`; each
record's `sample_mu`/`sample_sigma` are the distribution's mean and
variance over the HALF-OPEN slice `obs[a:b]` of its partition `(a, b)` —
the partition's right endpoint is excluded from the computation — and
every index of the inclusive partition is assigned `exp(sample_mu)`. -/
theorem c7_partition_means (dist : Dist) (lg : Nat → ℝ) (θ : ℝ) (obs : List ℝ)
    (cps : List CP) (ses : List SE) (st : List F)
    (h : detectTraj dist lg θ obs = Except.ok (cps, ses, st)) (hne : cps ≠ []) :
    ses.map SE.partition = specParts obs.length (sortedTs cps) ∧
      (∀ se ∈ ses, se.mu = (dist.meanVar (sliceHO obs se.partition.1 se.partition.2)).1 ∧
        se.sigma = (dist.meanVar (sliceHO obs se.partition.1 se.partition.2)).2) ∧
      (∀ se ∈ ses, ∀ j, inPart se.partition j → st.getD j F.nan = F.exp se.mu) := by
  obtain ⟨hses, hmap, _, hwrite⟩ := recon_writes h hne
  refine ⟨by rw [hmap, partsOf_eq_specParts], ?_, hwrite⟩
  intro se hse
  rw [hses] at hse
  obtain ⟨p, _, rfl⟩ := List.mem_map.1 hse
  exact ⟨rfl, rfl⟩

/-- Counterexample to C7 as stated: on the first example the first
partition is `(0, 3)` but its recorded `sample_mu` is the mean of
`obs[0:3] = [1, 1, 1]`, namely `1`, not the mean `5/4` of the partition's
four samples `obs[0..3] = [1, 1, 1, 2]`. -/
theorem c7_counterexample : detectCp exD1 = Except.ok exD1' ∧
    ((exD1'.stateEmission.getD 0 []).getD 0 ⟨(0, 0), F.nan, F.nan⟩).partition = (0, 3) ∧
    ((exD1'.stateEmission.getD 0 []).getD 0 ⟨(0, 0), F.nan, F.nan⟩).mu = F.fin 1 ∧
    (Dist.normal.meanVar (exObs1.take (3 + 1))).1 = F.fin (5 / 4) ∧
    (F.fin 1 : F) ≠ F.fin (5 / 4) := by
  refine ⟨detect_ex1, rfl, rfl, by norm_num [Dist.meanVar, rmean, exObs1], ?_⟩
  intro hc
  rw [F.fin.injEq] at hc
  norm_num at hc

/-- Witness for C7's amended theorem at the first concrete example. -/
theorem c7_witness : detectTraj Dist.normal exLg 0 exObs1 =
      Except.ok ([exCp1], exSes1, exSt1) ∧
    exSes1.map SE.partition = specParts exObs1.length (sortedTs [exCp1]) :=
  ⟨traj_ex1, (c7_partition_means Dist.normal exLg 0 exObs1 [exCp1] exSes1 exSt1
    traj_ex1 (by simp)).1⟩

/-- C8: a trajectory with zero recorded change points yields no state
emission records and a constant step function, every entry `exp(mean)` of
the whole trajectory under the active distribution, of length one less
than the trajectory.  (The nonemptiness hypothesis reflects that
`np.ones(length - 1)` requires a nonnegative size.) -/
theorem c8_no_cp_constant (dist : Dist) (lg : Nat → ℝ) (θ : ℝ) (obs : List ℝ)
    (cps : List CP) (ses : List SE) (st : List F)
    (h : detectTraj dist lg θ obs = Except.ok (cps, ses, st)) (hcps : cps = [])
    (hobs : obs ≠ []) :
    ses = [] ∧ st = List.replicate (obs.length - 1) (F.exp (dist.meanVar obs).1) := by
  obtain ⟨_, hses, hst⟩ := detectTraj_ok h
  subst hcps
  have hts : sortedTs ([] : List CP) = [] := rfl
  rw [hts, genStep] at hses hst
  refine ⟨by simpa using hses, ?_⟩
  rw [hst]
  simp only [List.map_replicate]
  rw [F.one_mul]

/-- Witness for C8 at the short concrete example. -/
theorem c8_witness : detectTraj Dist.normal exLg0 0 exObs0 =
      Except.ok ([], [], [F.exp (F.fin 2), F.exp (F.fin 2)]) ∧
    ([] : List SE) = [] ∧
    [F.exp (F.fin 2), F.exp (F.fin 2)] =
      List.replicate (exObs0.length - 1) (F.exp (Dist.normal.meanVar exObs0).1) :=
  ⟨traj_ex0,
    (c8_no_cp_constant Dist.normal exLg0 0 exObs0 [] [] _ traj_ex0 rfl
      (by simp [exObs0])).1,
    (c8_no_cp_constant Dist.normal exLg0 0 exObs0 [] [] _ traj_ex0 rfl
      (by simp [exObs0])).2⟩

/-- C9: the log-gamma table holds `lgamma(n/2 - 1)` at every index from `3`
to the maximum trajectory length `L`, the fixed sentinel `-99` below index
`3`, and the scorer's result depends only on table entries with indices in
`[3, L]` whenever it scores a segment of length between `6` and `L` — so
no sentinel entry and no out-of-range index is ever read in real scoring. -/
theorem c9_loggamma_table (L : Nat) :
    (∀ n, 3 ≤ n → n ≤ L → tabLookup (loggammaTable L) n = lgam n) ∧
      (∀ n, n < 3 → tabLookup (loggammaTable L) n = -99) ∧
      (∀ (dist : Dist) (θ : ℝ) (f g : Nat → ℝ) (obs : List ℝ),
        6 ≤ obs.length → obs.length ≤ L →
        (∀ m, 3 ≤ m → m ≤ L → f m = g m) →
        bf dist f θ obs = bf dist g θ obs) := by
  refine ⟨?_, ?_, ?_⟩
  · intro n h3 hL
    have hlen : (loggammaTable L).length = 3 + (L - 2) := by
      simp [loggammaTable]
      omega
    have hn : n < (loggammaTable L).length := by omega
    rw [tabLookup, List.getD_eq_getElem _ _ hn]
    simp only [loggammaTable]
    rw [List.getElem_append_right (by simp; omega)]
    rw [List.getElem_map, List.getElem_range']
    congr 1
    simp
    omega
  · intro n hn
    interval_cases n <;> rfl
  · intro dist θ f g obs h6 hL hfg
    have hden : bfDenom dist f obs = bfDenom dist g obs := by
      rw [bfDenom, bfDenom, hfg obs.length (by omega) hL]
    have hw : ∀ i, 3 ≤ i → i + 3 ≤ obs.length →
        bfWeight dist f obs i = bfWeight dist g obs i := by
      intro i h3 hi
      have hta : (obs.take i).length = i := by rw [List.length_take]; omega
      have hdr : (obs.drop i).length = obs.length - i := by rw [List.length_drop]
      simp only [bfWeight, hta, hdr]
      rw [hfg i (by omega) (by omega), hfg (obs.length - i) (by omega) (by omega)]
    have hws : bfWeights dist f obs = bfWeights dist g obs := by
      rw [bfWeights, bfWeights]
      have hmap : (List.range' 3 (obs.length - 5)).map (bfWeight dist f obs) =
          (List.range' 3 (obs.length - 5)).map (bfWeight dist g obs) := by
        apply List.map_congr_left
        intro i hi
        obtain ⟨k, hk, rfl⟩ := List.mem_range'.1 hi
        exact hw _ (by omega) (by omega)
      rw [hmap]
    have hnum : bfNum dist f obs = bfNum dist g obs := by
      rw [bfNum, bfNum, hws]
    have hodds : bfLogOdds dist f obs = bfLogOdds dist g obs := by
      rw [bfLogOdds, bfLogOdds, hnum, hden]
    have hmask : bfMasked dist f obs = bfMasked dist g obs := by
      rw [bfMasked, bfMasked, hws]
    unfold bf
    rw [hodds, hmask]

/-- Witness for C9: the table of a length-6 detector at indices `3` and
`0`, and the scorer evaluated with two different lookups agreeing on
`[3, 6]`. -/
theorem c9_witness : tabLookup (loggammaTable 6) 3 = lgam 3 ∧
    tabLookup (loggammaTable 6) 0 = -99 ∧
    bf Dist.normal (fun _ => 0) 0 exObs1 =
      bf Dist.normal (fun m => if 3 ≤ m ∧ m ≤ 6 then 0 else 7) 0 exObs1 :=
  ⟨(c9_loggamma_table 6).1 3 (by norm_num) (by norm_num),
    (c9_loggamma_table 6).2.1 0 (by norm_num),
    (c9_loggamma_table 6).2.2 Dist.normal 0 _ _ exObs1 (by norm_num [exObs1])
      (by norm_num [exObs1])
      (fun m h3 hL => by rw [if_pos ⟨h3, hL⟩])⟩

/-- C10: detection is deterministic and leaves the stored trajectories
untouched, so running it a second time on the detector state produced by a
successful run reproduces exactly the same state — in particular identical
per-trajectory change point records. -/
theorem c10_detect_idempotent (d d' : Detector) (h : detectCp d = Except.ok d') :
    d'.observations = d.observations ∧ detectCp d' = Except.ok d' := by
  obtain ⟨rs, hall, rfl⟩ := detectCp_ok h
  refine ⟨rfl, ?_⟩
  unfold detectCp
  rw [show ({ d with
        changePoints := rs.map (fun r => r.1),
        stateEmission := rs.map (fun r => r.2.1),
        stepFunction := rs.map (fun r => r.2.2) } : Detector).dist = d.dist from rfl,
    show ({ d with
        changePoints := rs.map (fun r => r.1),
        stateEmission := rs.map (fun r => r.2.1),
        stepFunction := rs.map (fun r => r.2.2) } : Detector).threshold = d.threshold from rfl,
    show ({ d with
        changePoints := rs.map (fun r => r.1),
        stateEmission := rs.map (fun r => r.2.1),
        stepFunction := rs.map (fun r => r.2.2) } : Detector).loggamma = d.loggamma from rfl,
    show ({ d with
        changePoints := rs.map (fun r => r.1),
        stateEmission := rs.map (fun r => r.2.1),
        stepFunction := rs.map (fun r => r.2.2) } : Detector).observations =
      d.observations from rfl,
    hall]

/-- Witness for C10 at the short concrete example. -/
theorem c10_witness : detectCp exD0 = Except.ok exD0' ∧
    exD0'.observations = exD0.observations ∧ detectCp exD0' = Except.ok exD0' :=
  ⟨detect_ex0, (c10_detect_idempotent exD0 exD0' detect_ex0).1,
    (c10_detect_idempotent exD0 exD0' detect_ex0).2⟩

end Cpdetect
